import Mathlib

/-!
Verification of the gitfs core (src/src/lib.rs and src/src/gitfs.rs).

The development is a shallow embedding of the Rust sources:

* `InoMap`, `Entry`, `EntryKind` mirror the data model of `lib.rs`
  (inode registry, tagged entry variants).  `BTreeMap`/`HashMap` values
  are embedded as association lists whose `insert` replaces an
  existing binding, matching map semantics; iteration order is not
  relied upon by any theorem below.
* inode numbers, object identifiers, timestamps, mode bits and file
  handles are embedded as `Nat`; reference counts (`i32` in the
  source) as `Int`; file names (`OsString`) as `String`.
* fallible host-filesystem and Git calls (openat `update_file`,
  `write_file`, `remove_file`, `local_rename`, `File::write_all`,
  `File::read`) are parameters of type `Except Int _` supplying the
  outcome observed by the code; the `Int` is the raw OS errno the
  `io_ok!` macro extracts.  Git object content is a total function
  `Repo : Oid -> List Nat` (the code unwraps `find_blob`).
* a Rust `unwrap`/`unreachable` on a path a handler can actually take
  is embedded as an `Option` result, `none` marking the aborted run.
-/

set_option maxHeartbeats 1000000

namespace GitFS

/-- Inode numbers (`Ino` in lib.rs, a newtype over `u64`); the root is 1. -/
abbrev Ino := Nat

/-- File names (`OsString` in the source). -/
abbrev Name := String

/-- Git object identifiers (`git2::Oid`). -/
abbrev Oid := Nat

/-- Timestamps (`SystemTime`/`Timespec`), abstracted to `Nat`. -/
abbrev Time := Nat

/-- Git blob store: `repo.find_blob(oid).content()` as a total map
from object id to byte list (the source unwraps every lookup). -/
abbrev Repo := Oid → List Nat

/-- `errno` constants used by the handlers (libc values). -/
def ENOENT : Int := 2

def ENOTDIR : Int := 20

def EISDIR : Int := 21

/-- libc `EIO` (the default errno of the `io_ok!` macro). -/
def eioErrno : Int := 5

/-- Association-list lookup: first binding of the key, mirroring a
hash-map `get`. -/
def alGet {α β : Type} [DecidableEq α] : List (α × β) → α → Option β
  | [], _ => none
  | p :: rest, k => if p.1 = k then some p.2 else alGet rest k

/-- Remove every binding of a key. -/
def alErase {α β : Type} [DecidableEq α] (l : List (α × β)) (k : α) : List (α × β) :=
  l.filter (fun p => decide (p.1 ≠ k))

/-- Map insert: replaces any existing binding of the key
(`HashMap::insert` / `BTreeMap::insert`). -/
def alInsert {α β : Type} [DecidableEq α] (l : List (α × β)) (k : α) (v : β) : List (α × β) :=
  (k, v) :: alErase l k

/-- `HashMap::contains_key`. -/
def alContains {α β : Type} [DecidableEq α] (l : List (α × β)) (k : α) : Bool :=
  (alGet l k).isSome

theorem alGet_erase_self {α β : Type} [DecidableEq α] (l : List (α × β)) (k : α) :
    alGet (alErase l k) k = none := by
  induction l with
  | nil => rfl
  | cons p rest ih =>
    by_cases h : p.1 = k <;> simp [alErase, alGet, h] at ih ⊢ <;> simpa [alErase] using ih

theorem alErase_cons {α β : Type} [DecidableEq α] (p : α × β) (rest : List (α × β)) (k : α) :
    alErase (p :: rest) k = if p.1 = k then alErase rest k else p :: alErase rest k := by
  by_cases hp : p.1 = k <;> simp [alErase, hp]

theorem alGet_erase_ne {α β : Type} [DecidableEq α] (l : List (α × β)) (k k' : α)
    (h : k' ≠ k) : alGet (alErase l k) k' = alGet l k' := by
  induction l with
  | nil => rfl
  | cons p rest ih =>
    rw [alErase_cons]
    by_cases hp : p.1 = k
    · rw [if_pos hp, ih]
      have hpk : ¬ p.1 = k' := by rw [hp]; exact fun e => h e.symm
      simp [alGet, hpk]
    · rw [if_neg hp]
      by_cases hk : p.1 = k' <;> simp [alGet, hk, ih]

theorem alGet_insert_self {α β : Type} [DecidableEq α] (l : List (α × β)) (k : α) (v : β) :
    alGet (alInsert l k v) k = some v := by
  simp [alInsert, alGet]

theorem alGet_insert_ne {α β : Type} [DecidableEq α] (l : List (α × β)) (k k' : α) (v : β)
    (h : k' ≠ k) : alGet (alInsert l k v) k' = alGet l k' := by
  have : ¬ k = k' := fun hk => h hk.symm
  simp [alInsert, alGet, this, alGet_erase_ne l k k' h]

theorem alGet_mem {α β : Type} [DecidableEq α] {l : List (α × β)} {k : α} {v : β}
    (h : alGet l k = some v) : (k, v) ∈ l := by
  induction l with
  | nil => simp [alGet] at h
  | cons p rest ih =>
    by_cases hp : p.1 = k
    · simp [alGet, hp] at h
      obtain ⟨a, b⟩ := p
      simp at hp h
      subst hp
      subst h
      exact List.mem_cons_self _ _
    · simp [alGet, hp] at h
      exact List.mem_cons_of_mem _ (ih h)

/-! ## The entry model (lib.rs) -/

/-- The four entry variants (`EntryKind` in lib.rs).  `children` maps a
name to a child inode and is `none` until the directory is
materialized; a `DirtyFile` carries an open-reference count and an
optional host file handle. -/
inductive EntryKind : Type where
  | GitTree (oid : Oid) (children : Option (List (Name × Ino)))
  | GitBlob (oid : Oid)
  | DirtyDir (children : Option (List (Name × Ino)))
  | DirtyFile (refcnt : Int) (file : Option Nat)
deriving DecidableEq, Repr

/-- Canonical per-inode record (`Entry` in lib.rs). -/
structure Entry : Type where
  name : Name
  parent : Ino
  ctime : Time
  atime : Time
  mtime : Time
  crtime : Time
  perm : Nat
  size : Nat
  u : EntryKind
deriving DecidableEq, Repr

/-- Children of a directory variant; `none` for a file variant or an
unmaterialized directory (the sites in the source that match
`GitTree { children: Some(c) } | DirtyDir { children: Some(c) }` and
treat everything else as `unreachable!`). -/
def childrenOf : EntryKind → Option (List (Name × Ino))
  | .GitTree _ (some c) => some c
  | .DirtyDir (some c) => some c
  | _ => none

/-- Rebuild a directory variant with updated children (the in-place
mutation of the matched `children` map in the source). -/
def withChildren : EntryKind → List (Name × Ino) → Option EntryKind
  | .GitTree oid (some _), c => some (.GitTree oid (some c))
  | .DirtyDir (some _), c => some (.DirtyDir (some c))
  | _, _ => none

/-- `Entry::get_child`: outer `none` is the `unreachable!` on file
variants / unmaterialized children, inner `Option` the map lookup. -/
def get_child (e : Entry) (n : Name) : Option (Option Ino) :=
  (childrenOf e.u).map (fun c => alGet c n)

theorem withChildren_of_childrenOf {u : EntryKind} {c0 : List (Name × Ino)}
    (h : childrenOf u = some c0) (c : List (Name × Ino)) :
    ∃ u', withChildren u c = some u' ∧ childrenOf u' = some c := by
  cases u with
  | GitTree oid ch =>
    cases ch with
    | none => simp [childrenOf] at h
    | some c1 => exact ⟨.GitTree oid (some c), rfl, rfl⟩
  | GitBlob oid => simp [childrenOf] at h
  | DirtyDir ch =>
    cases ch with
    | none => simp [childrenOf] at h
    | some c1 => exact ⟨.DirtyDir (some c), rfl, rfl⟩
  | DirtyFile r f => simp [childrenOf] at h

/-! ## The inode registry (lib.rs, `InoMap`) -/

/-- The inode registry: a monotone allocation counter plus the
`BTreeMap<Ino, Entry>` store. -/
structure InoMap : Type where
  next_ino : Ino
  inner : List (Ino × Entry)
deriving DecidableEq, Repr

/-- `InoMap::get`. -/
def InoMap.get (m : InoMap) (i : Ino) : Option Entry :=
  alGet m.inner i

/-- `InoMap::add`: insert at the current counter value and bump the
counter; returns the assigned inode. -/
def InoMap.add (m : InoMap) (e : Entry) : Ino × InoMap :=
  (m.next_ino, ⟨m.next_ino + 1, alInsert m.inner m.next_ino e⟩)

/-- Drop the binding of an inode (`BTreeMap::remove`, value ignored). -/
def InoMap.erase (m : InoMap) (i : Ino) : InoMap :=
  ⟨m.next_ino, alErase m.inner i⟩

/-- `InoMap::remove`: returns the removed entry and the shrunk map. -/
def InoMap.remove (m : InoMap) (i : Ino) : Option Entry × InoMap :=
  (m.get i, m.erase i)

/-- Functional counterpart of a `get_mut`-then-assign on the entry at
an inode. -/
def InoMap.set (m : InoMap) (i : Ino) (e : Entry) : InoMap :=
  ⟨m.next_ino, alInsert m.inner i e⟩

/-- Allocation well-formedness: every registered inode is below the
counter.  This holds in every reachable state because `add` is the
only way a binding is created. -/
def InoMap.WF (m : InoMap) : Prop :=
  ∀ p ∈ m.inner, p.1 < m.next_ino

theorem InoMap.get_lt_of_wf {m : InoMap} {i : Ino} {e : Entry}
    (hwf : m.WF) (h : m.get i = some e) : i < m.next_ino :=
  hwf (i, e) (alGet_mem h)

theorem InoMap.get_set_self (m : InoMap) (i : Ino) (e : Entry) :
    (m.set i e).get i = some e := by
  simp [InoMap.set, InoMap.get, alGet_insert_self]

theorem InoMap.get_set_ne (m : InoMap) (i j : Ino) (e : Entry) (h : j ≠ i) :
    (m.set i e).get j = m.get j := by
  simp [InoMap.set, InoMap.get, alGet_insert_ne _ _ _ _ h]

theorem InoMap.get_erase_self (m : InoMap) (i : Ino) :
    (m.erase i).get i = none := by
  simp [InoMap.erase, InoMap.get, alGet_erase_self]

theorem InoMap.get_erase_ne (m : InoMap) (i j : Ino) (h : j ≠ i) :
    (m.erase i).get j = m.get j := by
  simp [InoMap.erase, InoMap.get, alGet_erase_ne _ _ _ h]

theorem InoMap.get_add_self (m : InoMap) (e : Entry) :
    (m.add e).2.get m.next_ino = some e := by
  simp [InoMap.add, InoMap.get, alGet_insert_self]

theorem InoMap.get_add_ne (m : InoMap) (e : Entry) (j : Ino) (h : j ≠ m.next_ino) :
    (m.add e).2.get j = m.get j := by
  simp [InoMap.add, InoMap.get, alGet_insert_ne _ _ _ _ h]

theorem InoMap.add_fst (m : InoMap) (e : Entry) : (m.add e).1 = m.next_ino := rfl

theorem InoMap.erase_next_ino (m : InoMap) (i : Ino) : (m.erase i).next_ino = m.next_ino := rfl

theorem InoMap.set_next_ino (m : InoMap) (i : Ino) (e : Entry) :
    (m.set i e).next_ino = m.next_ino := rfl

/-! ## `InoMap::prefix` (lib.rs)

The source loops `while !ino.is_root()`, pushing each entry's name
and moving to its parent, failing (`?`) when an inode is missing, and
finally reverses the collected segments.  The loop has no termination
measure, so the embedding is fuel-indexed: exhausted fuel (`none` at
fuel 0) stands for a run that has not finished yet.  `Ino::is_root`
is `ino == 1`. -/

/-- Fuel-indexed embedding of `InoMap::prefix`.  `parts` is the `parts`
vector (pushed at the tail, reversed on exit). -/
def prefixFuel (m : InoMap) : Nat → Ino → List Name → Option (List Name)
  | 0, _, _ => none
  | fuel + 1, ino, parts =>
    if ino = 1 then some parts.reverse
    else
      match m.get ino with
      | none => none
      | some e => prefixFuel m fuel e.parent (parts ++ [e.name])

/-- The inode's parent chain reaches the root in `n` steps. -/
inductive ReachesRoot (m : InoMap) : Ino → Nat → Prop where
  | root : ReachesRoot m 1 0
  | step {ino : Ino} {e : Entry} {n : Nat} (hne : ino ≠ 1) (h : m.get ino = some e)
      (tail : ReachesRoot m e.parent n) : ReachesRoot m ino (n + 1)

/-- Some inode on the parent chain (before reaching the root) is
absent from the registry. -/
inductive MissingChain (m : InoMap) : Ino → Prop where
  | here {ino : Ino} (hne : ino ≠ 1) (h : m.get ino = none) : MissingChain m ino
  | there {ino : Ino} {e : Entry} (hne : ino ≠ 1) (h : m.get ino = some e)
      (tail : MissingChain m e.parent) : MissingChain m ino

/-- Expected result of the walk: the name segments of the ancestors of
the inode, root side first, the inode's own name last; stated from the
spec's description of the prefix path. -/
def ancestorNames (m : InoMap) : Ino → Nat → Option (List Name)
  | ino, 0 => if ino = 1 then some [] else none
  | ino, n + 1 =>
    match m.get ino with
    | none => none
    | some e => (ancestorNames m e.parent n).map (· ++ [e.name])

/-! ## Attribute builder (`GitFS::make_attr`) -/

/-- `fuser::FileType`, restricted to the two variants the code
produces. -/
inductive FileType : Type where
  | Directory
  | RegularFile
deriving DecidableEq, Repr

/-- `impl From<&Entry> for FileType` (lib.rs). -/
def fileTypeOf (e : Entry) : FileType :=
  match e.u with
  | .GitTree _ _ | .DirtyDir _ => .Directory
  | .GitBlob _ | .DirtyFile _ _ => .RegularFile

/-- `fuser::FileAttr` as built by `make_attr`. -/
structure FileAttr : Type where
  ino : Nat
  size : Nat
  blocks : Nat
  atime : Time
  mtime : Time
  ctime : Time
  crtime : Time
  kind : FileType
  perm : Nat
  nlink : Nat
  uid : Nat
  gid : Nat
  rdev : Nat
  blksize : Nat
  flags : Nat
deriving DecidableEq, Repr

/-- `GitFS::make_attr`.  `uid`/`gid` stand for `libc::getuid()` /
`libc::getgid()`.  The `perm` field is `entry.perm.mode() as u16`, a
truncation of the stored mode to 16 bits. -/
def make_attr (uid gid : Nat) (ino : Ino) (entry : Entry) : FileAttr :=
  { ino := ino
    size := entry.size
    blocks := 0
    atime := entry.atime
    mtime := entry.mtime
    ctime := entry.ctime
    crtime := entry.crtime
    kind := fileTypeOf entry
    perm := entry.perm % 65536
    nlink := if fileTypeOf entry = .Directory then 2 else 1
    uid := uid
    gid := gid
    rdev := 0
    blksize := 0
    flags := 0 }

/-! ## `read` handler -/

/-- Replies issued by `read` (`ReplyData`). -/
inductive ReadReply : Type where
  | data (bytes : List Nat)
  | error (e : Int)
deriving DecidableEq, Repr

/-- The `read` handler.  `fileRead h off sz` is the outcome of the
`seek(SeekFrom::Start(off))` + `read(&mut buf)` pair on host handle
`h` (the returned list is `buf[0..nbytes]`, at most `sz` long).  The
`GitBlob` arm slices `blob.content()[offset..offset + size]`; an
out-of-range slice aborts the process, embedded as `none`. -/
def read (repo : Repo) (fileRead : Nat → Nat → Nat → Except Int (List Nat))
    (m : InoMap) (ino : Ino) (offset size : Nat) : Option (InoMap × ReadReply) :=
  match m.get ino with
  | none => some (m, .error ENOENT)
  | some e =>
    match e.u with
    | .GitBlob oid =>
      let content := repo oid
      if offset + size ≤ content.length then
        some (m, .data ((content.drop offset).take size))
      else none
    | .DirtyFile _ file =>
      match file with
      | none => some (m, .error eioErrno)
      | some h =>
        match fileRead h offset size with
        | .error err => some (m, .error err)
        | .ok bytes => some (m, .data bytes)
    | .GitTree _ _ | .DirtyDir _ => some (m, .error EISDIR)

/-! ## `open` handler and the blob-to-file promoter -/

/-- Replies issued by `open` (`ReplyOpen`). -/
inductive OpenReply : Type where
  | opened
  | error (e : Int)
deriving DecidableEq, Repr

/-- `GitFS::open_dirty_file`: computes the prefix path, then
`update_file(path, perm)` (outcome `uRes`, yielding the new host
handle) and on success rebinds the entry to
`DirtyFile { file: Some(f), refcnt: 1 }`.  `none` is the
`get_mut(ino).unwrap()` abort on a missing inode. -/
def open_dirty_file (m : InoMap) (ino : Ino) (uRes : Except Int Nat) :
    Option (Except Int InoMap) :=
  match m.get ino with
  | none => none
  | some e =>
    match uRes with
    | .error err => some (.error err)
    | .ok f => some (.ok (m.set ino { e with u := .DirtyFile 1 (some f) }))

/-- `GitFS::open_git_blob_for_update`: `update_file` (outcome `uRes`),
then `write_all(blob.content())` (outcome `wRes`), then rebind the
entry to `DirtyFile { file: Some(f), refcnt: 1 }`.  Either failure
propagates before the entry is mutated. -/
def open_git_blob_for_update (m : InoMap) (ino : Ino)
    (uRes : Except Int Nat) (wRes : Except Int Unit) : Option (Except Int InoMap) :=
  match m.get ino with
  | none => none
  | some e =>
    match uRes with
    | .error err => some (.error err)
    | .ok f =>
      match wRes with
      | .error err => some (.error err)
      | .ok _ => some (.ok (m.set ino { e with u := .DirtyFile 1 (some f) }))

/-- The `open` handler (named `open'` since `open` is a Lean keyword).
Returns the new registry and the list of replies the handler issued on
that path.  `flags & !O_RDONLY == 0` is embedded literally: `O_RDONLY`
is 0, so the mask is the all-ones 32-bit word.  Note the
`DirtyFile { file: Some(_) }` arm of the source increments `refcnt`
and then falls off the end of the function without calling
`reply.opened` or `reply.error`: that path issues no reply. -/
def open' (m : InoMap) (ino : Ino) (flags : Nat)
    (uRes : Except Int Nat) (wRes : Except Int Unit) : Option (InoMap × List OpenReply) :=
  match m.get ino with
  | none => some (m, [.error ENOENT])
  | some e =>
    match e.u with
    | .GitTree _ _ | .DirtyDir _ => some (m, [.error EISDIR])
    | .DirtyFile refcnt (some f) =>
      some (m.set ino { e with u := .DirtyFile (refcnt + 1) (some f) }, [])
    | .DirtyFile _ none =>
      let m1 := m.set ino { e with u := .DirtyFile 1 none }
      match open_dirty_file m1 ino uRes with
      | none => none
      | some (.error err) => some (m1, [.error err])
      | some (.ok m2) => some (m2, [.opened])
    | .GitBlob _ =>
      if Nat.land flags 4294967295 = 0 then some (m, [.opened])
      else
        match open_git_blob_for_update m ino uRes wRes with
        | none => none
        | some (.error err) => some (m, [.error err])
        | some (.ok m2) => some (m2, [.opened])

/-- Invariant I3 of the spec, as a decidable predicate on an entry
kind: a `DirtyFile` has no open handle exactly when its reference
count is zero. -/
def dirtyFileInvB : EntryKind → Bool
  | .DirtyFile refcnt file => file.isNone == (refcnt == 0)
  | _ => true

/-! ## Removal (`do_remove` / `remove_entry`) -/

/-- Replies issued by the empty-reply handlers (`ReplyEmpty`). -/
inductive EmptyReply : Type where
  | ok
  | error (e : Int)
deriving DecidableEq, Repr

/-- `GitFS::remove_entry`: detach the inode from the registry, then
apply the on-disk removal (outcome `rmRes`: `remove_file` for a
`DirtyFile`, `remove_dir` for a `DirtyDir`; Git-backed entries touch
no disk).  On failure the detached entry itself is handed back for
re-insertion.  `none` is the `remove(ino).unwrap()` abort. -/
def remove_entry (m : InoMap) (ino : Ino) (rmRes : Except Int Unit) :
    Option (Except (Entry × Int) Unit × InoMap) :=
  match m.get ino with
  | none => none
  | some e =>
    let m1 := m.erase ino
    match e.u with
    | .DirtyFile _ _ =>
      match rmRes with
      | .ok _ => some (.ok (), m1)
      | .error err => some (.error (e, err), m1)
    | .DirtyDir _ =>
      match rmRes with
      | .ok _ => some (.ok (), m1)
      | .error err => some (.error (e, err), m1)
    | .GitBlob _ => some (.ok (), m1)
    | .GitTree _ _ => some (.ok (), m1)

/-- `GitFS::do_remove` (the body of `unlink` and `rmdir`): resolve the
child in the parent's children, detach it via `remove_entry`; on
failure re-insert the returned entry at a freshly allocated inode,
re-link it under the same name, and reply with the OS error. -/
def do_remove (m : InoMap) (parent : Ino) (name : Name) (rmRes : Except Int Unit) :
    Option (InoMap × EmptyReply) :=
  match m.get parent with
  | none => some (m, .error ENOENT)
  | some pe =>
    match childrenOf pe.u with
    | none => none
    | some c =>
      match alGet c name with
      | none => some (m, .error ENOENT)
      | some child =>
        match remove_entry m child rmRes with
        | none => none
        | some (.ok _, m1) => some (m1, .ok)
        | some (.error (ent, err), m1) =>
          let ino2 := (m1.add ent).1
          let m2 := (m1.add ent).2
          match m2.get parent with
          | none => none
          | some pe2 =>
            match childrenOf pe2.u with
            | none => none
            | some c2 =>
              match withChildren pe2.u (alInsert c2 name ino2) with
              | none => none
              | some u2 => some (m2.set parent { pe2 with u := u2 }, .error err)

/-! ## `rename` handler -/

/-- The physical-move step of `rename`: `local_rename` is attempted
(outcome `mvRes`) only when the child is a dirty variant; Git-backed
entries move in memory only. -/
def physOutcome (u : EntryKind) (mvRes : Except Int Unit) : Except Int Unit :=
  match u with
  | .DirtyFile _ _ => mvRes
  | .DirtyDir _ => mvRes
  | _ => .ok ()

/-- The `rename` handler.  `mvRes` is the outcome of
`underlying_dir.local_rename(oldpath, newpath)`, consulted only when
the child is a dirty variant.  The in-memory move updates the child's
`name`, removes `name` from the source directory's children and
inserts `newname -> child` into the destination's children, keeping
the inode intact. -/
def rename (m : InoMap) (parent : Ino) (name : Name) (newparent : Ino) (newname : Name)
    (mvRes : Except Int Unit) : Option (InoMap × EmptyReply) :=
  match m.get parent with
  | none => some (m, .error ENOENT)
  | some oldpent =>
    match get_child oldpent name with
    | none => none
    | some none => some (m, .error ENOENT)
    | some (some c) =>
      match m.get c with
      | none => some (m, .error ENOENT)
      | some cent =>
        match m.get newparent with
        | none => some (m, .error ENOENT)
        | some _newpent =>
          match physOutcome cent.u mvRes with
          | .error err => some (m, .error err)
          | .ok _ =>
            let m1 := m.set c { cent with name := newname }
            match m1.get parent with
            | none => none
            | some op =>
              match childrenOf op.u with
              | none => none
              | some oc =>
                match alGet oc name with
                | none => none
                | some _ =>
                  match withChildren op.u (alErase oc name) with
                  | none => none
                  | some u2 =>
                    let m2 := m1.set parent { op with u := u2 }
                    match m2.get newparent with
                    | none => none
                    | some np =>
                      match childrenOf np.u with
                      | none => none
                      | some nc =>
                        match withChildren np.u (alInsert nc newname c) with
                        | none => none
                        | some u3 => some (m2.set newparent { np with u := u3 }, .ok)

/-! ## `create` and `mkdir` handlers -/

/-- Replies issued by `create` (`ReplyCreate`). -/
inductive CreateReply : Type where
  | created (attr : FileAttr)
  | error (e : Int)
deriving DecidableEq, Repr

/-- Replies issued by `mkdir` (`ReplyEntry`). -/
inductive EntryReply : Type where
  | entry (attr : FileAttr)
  | error (e : Int)
deriving DecidableEq, Repr

/-- The `create` handler.  The prefix of the parent is computed first
(`some!` replies EIO when it is `None`); `wfRes` is the outcome of
`underlying_dir.write_file(path, mode)`, yielding the host handle.
The attribute record is built from `next_ino()` peeked immediately
before the `add` that registers the new entry. -/
def create (uid gid : Nat) (m : InoMap) (fuel : Nat) (parent : Ino) (name : Name)
    (mode : Nat) (now : Time) (wfRes : Except Int Nat) : Option (InoMap × CreateReply) :=
  match prefixFuel m fuel parent [] with
  | none => some (m, .error eioErrno)
  | some _path =>
    match wfRes with
    | .error err => some (m, .error err)
    | .ok f =>
      let fentry : Entry :=
        { name := name, parent := parent, ctime := now, mtime := now, atime := now
          crtime := now, perm := mode, size := 0, u := .DirtyFile 1 (some f) }
      let attr := make_attr uid gid m.next_ino fentry
      let ino := (m.add fentry).1
      let m1 := (m.add fentry).2
      match m1.get parent with
      | none => some (m1, .error ENOENT)
      | some dir =>
        match childrenOf dir.u with
        | none => none
        | some dc =>
          match withChildren dir.u (alInsert dc name ino) with
          | none => none
          | some u2 => some (m1.set parent { dir with u := u2 }, .created attr)

/-- The `mkdir` handler, analogous to `create`: `cdRes` is the outcome
of `underlying_dir.create_dir(path, mode)`; the new entry is a
`DirtyDir` with unmaterialized children. -/
def mkdir (uid gid : Nat) (m : InoMap) (fuel : Nat) (parent : Ino) (name : Name)
    (mode : Nat) (now : Time) (cdRes : Except Int Unit) : Option (InoMap × EntryReply) :=
  match prefixFuel m fuel parent [] with
  | none => some (m, .error eioErrno)
  | some _path =>
    match cdRes with
    | .error err => some (m, .error err)
    | .ok _ =>
      let dentry : Entry :=
        { name := name, parent := parent, ctime := now, mtime := now, atime := now
          crtime := now, perm := mode, size := 0, u := .DirtyDir none }
      let attr := make_attr uid gid m.next_ino dentry
      let ino := (m.add dentry).1
      let m1 := (m.add dentry).2
      match m1.get parent with
      | none => some (m1, .error ENOENT)
      | some dir =>
        match childrenOf dir.u with
        | none => none
        | some dc =>
          match withChildren dir.u (alInsert dc name ino) with
          | none => none
          | some u2 => some (m1.set parent { dir with u := u2 }, .entry attr)

/-! ## Directory materializer (`walk_tree` / `walk_dir`) -/

/-- The object kind of one Git tree entry (`tree_entry.kind()`);
`other` covers commits, tags and unknown kinds, which are skipped
with a warning. -/
inductive TreeEntKind : Type where
  | blob (oid : Oid)
  | tree (oid : Oid)
  | other
deriving DecidableEq, Repr

/-- One entry of a Git tree listing (`git2::TreeEntry`): its name, its
POSIX filemode and its object kind. -/
structure TreeEnt : Type where
  name : Name
  filemode : Nat
  kind : TreeEntKind
deriving DecidableEq, Repr

/-- `GitFS::walk_tree`: fold the tree listing into a name-keyed map of
fresh entries.  A blob yields a `GitBlob` child sized by its content,
with the tree entry's filemode and zero-epoch timestamps; a sub-tree
yields an unmaterialized `GitTree` child with mode `0o755`; other
kinds are skipped. -/
def walk_tree (repo : Repo) (ino : Ino) (listing : List TreeEnt) : List (Name × Entry) :=
  listing.foldl
    (fun entries te =>
      match te.kind with
      | .blob oid =>
        alInsert entries te.name
          { name := te.name, parent := ino, ctime := 0, atime := 0, mtime := 0
            crtime := 0, perm := te.filemode, size := (repo oid).length
            u := .GitBlob oid }
      | .tree oid =>
        alInsert entries te.name
          { name := te.name, parent := ino, ctime := 0, atime := 0, mtime := 0
            crtime := 0, perm := 493, size := 0, u := .GitTree oid none }
      | .other => entries)
    []

/-- The stat record of one underlying child
(`openat::Metadata::stat()`), with `crtime` fixed to the epoch by
`birthtime` on non-macOS targets. -/
structure UStat : Type where
  st_mode : Nat
  st_size : Nat
  st_atime : Nat
  st_mtime : Nat
  st_ctime : Nat
deriving DecidableEq, Repr

/-- `openat::SimpleType` as consumed by the walk; `other` covers the
`_` arm (symlinks, devices, unknown) which is skipped. -/
inductive SimpleKind : Type where
  | dir
  | file
  | other
deriving DecidableEq, Repr

/-- One item yielded by the underlying directory iterator:
`unreadable` is an `Err` item (skipped with a warning); a stat of
`none` is a failed `metadata` call (also skipped). -/
inductive DirtyItem : Type where
  | unreadable
  | item (name : Name) (stat : Option UStat) (ty : SimpleKind)
deriving DecidableEq, Repr

/-- One step of the underlying-directory merge loop in
`GitFS::walk_dir`.  A subdirectory is added only when the name is not
already present (`!entries.contains_key`); a regular file is inserted
unconditionally — "a file on disk is always considered dirty" — and
therefore replaces a Git-derived entry of the same name. -/
def mergeStep (ino : Ino) (entries : List (Name × Entry)) : DirtyItem → List (Name × Entry)
  | .unreadable => entries
  | .item _ none _ => entries
  | .item name (some st) ty =>
    match ty with
    | .dir =>
      if alContains entries name then entries
      else
        alInsert entries name
          { name := name, parent := ino, ctime := st.st_ctime, atime := st.st_atime
            mtime := st.st_mtime, crtime := 0, perm := st.st_mode, size := st.st_size
            u := .DirtyDir none }
    | .file =>
      alInsert entries name
        { name := name, parent := ino, ctime := st.st_ctime, atime := st.st_atime
          mtime := st.st_mtime, crtime := 0, perm := st.st_mode, size := st.st_size
          u := .DirtyFile 0 none }
    | .other => entries

/-- `GitFS::walk_dir`.  `trees t` is the listing `find_tree(t)` (total,
as the claims exercise no tree-lookup failure); `tree_id` is `Some`
for a `GitTree` parent and `None` for a `DirtyDir`; `dirList` is the
outcome of listing the underlying directory at the parent's prefix.
A failed underlying listing is treated as an empty directory when a
Git tree backs the parent, and as an IO error otherwise. -/
def walk_dir (repo : Repo) (trees : Oid → List TreeEnt) (ino : Ino)
    (tree_id : Option Oid) (dirList : Except Unit (List DirtyItem)) :
    Except Int (List (Name × Entry)) :=
  let entries :=
    match tree_id with
    | some t => walk_tree repo ino (trees t)
    | none => []
  match dirList with
  | .error _ =>
    match tree_id with
    | some _ => .ok entries
    | none => .error eioErrno
  | .ok items => .ok (items.foldl (mergeStep ino) entries)

/-- Whether an entry kind is served from the Git object store (the
claim's "Git-backed entry"). -/
def isGitBacked : EntryKind → Bool
  | .GitTree _ _ => true
  | .GitBlob _ => true
  | _ => false

/-- A readable underlying item that is a regular file of the given
name: exactly the items that take the unconditional-insert arm of the
merge for that name. -/
def isFileItemNamed (it : DirtyItem) (name : Name) : Bool :=
  match it with
  | .item n (some _) .file => n == name
  | _ => false

/-! ## Claim C2 — reply discipline of `open` -/

/-- A registry whose inode 2 is a `DirtyFile` with an open host handle
(`refcnt` 1, handle 7), the state after a first `open`. -/
def entC2 : Entry :=
  { name := "f", parent := 1, ctime := 0, atime := 0, mtime := 0, crtime := 0
    perm := 420, size := 3, u := .DirtyFile 1 (some 7) }

def mC2 : InoMap := ⟨3, [(2, entC2)]⟩

/-- C2: on an `open` of an existing `DirtyFile` whose `open_handle` is
already present, the handler increments `refcnt` and returns without
issuing any reply: the run completes with an empty reply list, not
the exactly-one reply the claim requires. -/
theorem C2_open_existing_dirty_file_issues_no_reply :
    open' mC2 2 0 (.ok 9) (.ok ()) =
      some (mC2.set 2 { entC2 with u := .DirtyFile 2 (some 7) }, []) := by
  decide

/-! ## Claim C4 — handle/refcount invariant I3 -/

/-- A registry whose inode 2 is a closed `DirtyFile`
(`refcnt` 0, no handle), as created by the directory walk. -/
def entC4 : Entry :=
  { name := "g", parent := 1, ctime := 0, atime := 0, mtime := 0, crtime := 0
    perm := 420, size := 0, u := .DirtyFile 0 none }

def mC4 : InoMap := ⟨3, [(2, entC4)]⟩

/-- C4: `open` on a closed `DirtyFile` sets `refcnt = 1` before
attempting `update_file`; when that call fails (here errno 13), the
handler replies the error but leaves the entry with `refcnt = 1` and
`open_handle = None`, violating I3 (`open_handle is None ↔ refcnt == 0`). -/
theorem C4_open_failure_breaks_refcnt_invariant :
    (open' mC4 2 1 (.error 13) (.ok ())).map
        (fun r => (r.2, (r.1.get 2).map (fun e => (e.u, dirtyFileInvB e.u)))) =
      some ([.error 13], some (.DirtyFile 1 none, false)) := by
  decide

/-! ## Claim C8 — attribute builder -/

/-- C8 (amended): the attribute record carries the given inode, the
entry's size and timestamps, `blocks = 0`, kind `Directory` for
`GitTree`/`DirtyDir` and `RegularFile` for `GitBlob`/`DirtyFile`,
`perm` equal to the low 16 bits of the entry's mode (the `as u16`
cast; the claim's "low 12 bits" is wrong), `nlink` 2 for directories
else 1, the process `uid`/`gid`, and `rdev = flags = blksize = 0`. -/
theorem C8_make_attr_fields (uid gid : Nat) (ino : Ino) (e : Entry) :
    make_attr uid gid ino e =
      { ino := ino, size := e.size, blocks := 0, atime := e.atime, mtime := e.mtime
        ctime := e.ctime, crtime := e.crtime
        kind :=
          match e.u with
          | .GitTree _ _ => .Directory
          | .DirtyDir _ => .Directory
          | .GitBlob _ => .RegularFile
          | .DirtyFile _ _ => .RegularFile
        perm := e.perm % 65536
        nlink :=
          match e.u with
          | .GitTree _ _ => 2
          | .DirtyDir _ => 2
          | .GitBlob _ => 1
          | .DirtyFile _ _ => 1
        uid := uid, gid := gid, rdev := 0, blksize := 0, flags := 0 } := by
  obtain ⟨n, p, ct, at_, mt, cr, pm, s, u⟩ := e
  cases u <;> rfl

/-- An entry whose stored mode carries the regular-file type bits
(`st_mode = 0o100644 = 33188`), exactly what `walk_dir` stores from an
underlying stat. -/
def entC8 : Entry :=
  { name := "m", parent := 1, ctime := 0, atime := 0, mtime := 0, crtime := 0
    perm := 33188, size := 6, u := .DirtyFile 0 none }

/-- C8 counterexample: for a mode with type bits set, the produced
`perm` is the low 16 bits (33188), not the low 12 bits (420). -/
theorem C8_perm_is_not_low_12_bits :
    (make_attr 0 0 2 entC8).perm ≠ entC8.perm % 4096 := by
  decide

/-! ## Claim C3 — blob read round-trip -/

/-- C3: for a `GitBlob` entry whose content has `N` bytes and any
`offset`, `size` with `offset + size ≤ N`, `read` succeeds, leaves the
registry untouched and returns exactly the content bytes of the
half-open range `[offset, offset + size)`. -/
theorem C3_read_blob_roundtrip (repo : Repo)
    (fileRead : Nat → Nat → Nat → Except Int (List Nat)) (m : InoMap) (ino : Ino)
    (e : Entry) (oid : Oid) (offset size : Nat)
    (he : m.get ino = some e) (hu : e.u = .GitBlob oid)
    (hbound : offset + size ≤ (repo oid).length) :
    ∃ l, read repo fileRead m ino offset size = some (m, .data l) ∧
      l.length = size ∧ ∀ i < size, l[i]? = (repo oid)[offset + i]? := by
  refine ⟨((repo oid).drop offset).take size, ?_, ?_, ?_⟩
  · simp only [read, he, hu]
    rw [if_pos hbound]
  · rw [List.length_take, List.length_drop]
    omega
  · intro i hi
    rw [List.getElem?_take_of_lt hi, List.getElem?_drop]

def repoC3 : Repo := fun _ => [10, 11, 12, 13]

def entC3 : Entry :=
  { name := "b", parent := 1, ctime := 0, atime := 0, mtime := 0, crtime := 0
    perm := 420, size := 4, u := .GitBlob 5 }

def mC3 : InoMap := ⟨3, [(2, entC3)]⟩

def frC3 : Nat → Nat → Nat → Except Int (List Nat) := fun _ _ _ => .error 5

theorem C3_read_blob_roundtrip_witness :
    ∃ l, read repoC3 frC3 mC3 2 1 2 = some (mC3, .data l) ∧
      l.length = 2 ∧ ∀ i < 2, l[i]? = (repoC3 5)[1 + i]? :=
  C3_read_blob_roundtrip repoC3 frC3 mC3 2 entC3 5 1 2 (by decide) (by decide) (by decide)

/-! ## Claim C5 — promotion atomicity on failure -/

/-- C5: when the blob-to-file promoter hits an IO error at either step
(`update_file` or `write_all`), `open` replies exactly that error and
the registry is returned unchanged, so the entry is still the original
`GitBlob`. -/
theorem C5_promotion_failure_is_atomic (m : InoMap) (ino : Ino) (e : Entry) (oid : Oid)
    (flags : Nat) (uRes : Except Int Nat) (wRes : Except Int Unit) (err : Int)
    (he : m.get ino = some e) (hu : e.u = .GitBlob oid)
    (hflags : Nat.land flags 4294967295 ≠ 0)
    (hfail : uRes = .error err ∨ ∃ f, uRes = .ok f ∧ wRes = .error err) :
    open' m ino flags uRes wRes = some (m, [.error err]) ∧
      m.get ino = some e ∧ e.u = .GitBlob oid := by
  refine ⟨?_, he, hu⟩
  simp only [open', he, hu]
  rw [if_neg hflags]
  rcases hfail with h | ⟨f, hU, hW⟩
  · subst h
    simp [open_git_blob_for_update, he]
  · subst hU
    subst hW
    simp [open_git_blob_for_update, he]

def entC5 : Entry :=
  { name := "c", parent := 1, ctime := 0, atime := 0, mtime := 0, crtime := 0
    perm := 420, size := 4, u := .GitBlob 5 }

def mC5 : InoMap := ⟨3, [(2, entC5)]⟩

theorem C5_promotion_failure_is_atomic_witness :
    open' mC5 2 2 (.error 13) (.ok ()) = some (mC5, [.error 13]) ∧
      mC5.get 2 = some entC5 ∧ entC5.u = .GitBlob 5 :=
  C5_promotion_failure_is_atomic mC5 2 entC5 5 2 (.error 13) (.ok ()) 13
    (by decide) (by decide) (by decide) (Or.inl rfl)

/-! ## Claim C9 — reply attribute carries the registered inode -/

/-- C9: on a successful `create` (and likewise `mkdir`), the inode in
the attribute record of the reply — built from `next_ino()` peeked
just before `add` — is exactly the inode at which the new entry is
registered, for every state of the inode map (assuming the allocation
invariant that registered inodes are below the counter). -/
theorem C9_create_attr_ino_matches_registry (uid gid : Nat) (m : InoMap) (fuel : Nat)
    (parent : Ino) (name : Name) (mode : Nat) (now : Time) (f : Nat)
    (pe : Entry) (pc : List (Name × Ino)) (pth : List Name)
    (hwf : m.WF) (hp : m.get parent = some pe) (hc : childrenOf pe.u = some pc)
    (hpre : prefixFuel m fuel parent [] = some pth) :
    (∃ m' attr, create uid gid m fuel parent name mode now (.ok f) = some (m', .created attr) ∧
      attr.ino = m.next_ino ∧
      m'.get attr.ino = some
        { name := name, parent := parent, ctime := now, mtime := now, atime := now
          crtime := now, perm := mode, size := 0, u := .DirtyFile 1 (some f) }) ∧
    (∃ m' attr, mkdir uid gid m fuel parent name mode now (.ok ()) = some (m', .entry attr) ∧
      attr.ino = m.next_ino ∧
      m'.get attr.ino = some
        { name := name, parent := parent, ctime := now, mtime := now, atime := now
          crtime := now, perm := mode, size := 0, u := .DirtyDir none }) := by
  have hplt : parent < m.next_ino := InoMap.get_lt_of_wf hwf hp
  have hpne : parent ≠ m.next_ino := Nat.ne_of_lt hplt
  have hnep : m.next_ino ≠ parent := Nat.ne_of_gt hplt
  constructor
  · set fentry : Entry :=
      { name := name, parent := parent, ctime := now, mtime := now, atime := now
        crtime := now, perm := mode, size := 0, u := .DirtyFile 1 (some f) } with hfe
    have h1 : (m.add fentry).2.get parent = some pe := by
      rw [InoMap.get_add_ne m fentry parent hpne]
      exact hp
    obtain ⟨u2, hw, _⟩ := withChildren_of_childrenOf hc (alInsert pc name m.next_ino)
    refine ⟨((m.add fentry).2).set parent { pe with u := u2 },
      make_attr uid gid m.next_ino fentry, ?_, rfl, ?_⟩
    · simp only [create, hpre, InoMap.add_fst, h1, hc, hw]
    · show (((m.add fentry).2).set parent { pe with u := u2 }).get m.next_ino = some fentry
      rw [InoMap.get_set_ne _ _ _ _ hnep]
      exact InoMap.get_add_self m fentry
  · set dentry : Entry :=
      { name := name, parent := parent, ctime := now, mtime := now, atime := now
        crtime := now, perm := mode, size := 0, u := .DirtyDir none } with hde
    have h1 : (m.add dentry).2.get parent = some pe := by
      rw [InoMap.get_add_ne m dentry parent hpne]
      exact hp
    obtain ⟨u2, hw, _⟩ := withChildren_of_childrenOf hc (alInsert pc name m.next_ino)
    refine ⟨((m.add dentry).2).set parent { pe with u := u2 },
      make_attr uid gid m.next_ino dentry, ?_, rfl, ?_⟩
    · simp only [mkdir, hpre, InoMap.add_fst, h1, hc, hw]
    · show (((m.add dentry).2).set parent { pe with u := u2 }).get m.next_ino = some dentry
      rw [InoMap.get_set_ne _ _ _ _ hnep]
      exact InoMap.get_add_self m dentry

/-- Root directory used by the concrete witnesses: a materialized
`GitTree` with one child binding. -/
def rootC9 : Entry :=
  { name := "", parent := 1, ctime := 0, atime := 0, mtime := 0, crtime := 0
    perm := 493, size := 0, u := .GitTree 1 (some []) }

def mC9 : InoMap := ⟨2, [(1, rootC9)]⟩

theorem C9_create_attr_ino_matches_registry_witness :
    (∃ m' attr, create 0 0 mC9 1 1 "n" 420 7 (.ok 3) = some (m', .created attr) ∧
      attr.ino = mC9.next_ino ∧
      m'.get attr.ino = some
        { name := "n", parent := 1, ctime := 7, mtime := 7, atime := 7
          crtime := 7, perm := 420, size := 0, u := .DirtyFile 1 (some 3) }) ∧
    (∃ m' attr, mkdir 0 0 mC9 1 1 "n" 420 7 (.ok ()) = some (m', .entry attr) ∧
      attr.ino = mC9.next_ino ∧
      m'.get attr.ino = some
        { name := "n", parent := 1, ctime := 7, mtime := 7, atime := 7
          crtime := 7, perm := 420, size := 0, u := .DirtyDir none }) :=
  C9_create_attr_ino_matches_registry 0 0 mC9 1 1 "n" 420 7 3 rootC9 [] []
    (fun p hp => by
      have h : p = (1, rootC9) := List.mem_singleton.mp hp
      subst h
      decide)
    (by decide) (by decide) (by decide)

/-! ## Claim C10 — termination and correctness of the prefix walk -/

theorem prefixFuel_reaches (m : InoMap) {ino : Ino} {n : Nat} (h : ReachesRoot m ino n) :
    ∀ fuel parts, n < fuel →
      prefixFuel m fuel ino parts = (ancestorNames m ino n).map (· ++ parts.reverse) := by
  induction h with
  | root =>
    intro fuel parts hf
    cases fuel with
    | zero => omega
    | succ f => simp [prefixFuel, ancestorNames]
  | step hne hget tail ih =>
    rename_i ino e n
    intro fuel parts hf
    cases fuel with
    | zero => omega
    | succ f =>
      simp only [prefixFuel, if_neg hne, hget]
      rw [ih f (parts ++ [e.name]) (by omega)]
      simp only [ancestorNames, hget]
      cases ancestorNames m e.parent n with
      | none => rfl
      | some l => simp [List.reverse_append]

theorem ancestorNames_isSome (m : InoMap) {ino : Ino} {n : Nat} (h : ReachesRoot m ino n) :
    ∃ l, ancestorNames m ino n = some l := by
  induction h with
  | root => exact ⟨[], by simp [ancestorNames]⟩
  | step hne hget tail ih =>
    rename_i ino e n
    obtain ⟨l, hl⟩ := ih
    exact ⟨l ++ [e.name], by simp [ancestorNames, hget, hl]⟩

theorem prefixFuel_missing (m : InoMap) {ino : Ino} (h : MissingChain m ino) :
    ∀ fuel parts, prefixFuel m fuel ino parts = none := by
  induction h with
  | here hne hget =>
    intro fuel parts
    cases fuel with
    | zero => rfl
    | succ f => simp [prefixFuel, if_neg hne, hget]
  | there hne hget tail ih =>
    rename_i ino e
    intro fuel parts
    cases fuel with
    | zero => rfl
    | succ f => simp [prefixFuel, if_neg hne, hget, ih]

/-- C10: when the parent chain of an inode reaches the root in `n`
steps, the prefix walk terminates — any fuel beyond `n` yields the
same `some` result — and the returned path is the ancestors' name
segments ordered from the root down to the entry itself
(`ancestorNames`); when some inode on the chain is missing from the
registry, the walk returns `None` at every fuel instead of running
on. -/
theorem C10_prefix_terminates_and_is_correct (m : InoMap) (ino : Ino) :
    (∀ n, ReachesRoot m ino n → ∀ fuel, n < fuel →
      ∃ l, ancestorNames m ino n = some l ∧ prefixFuel m fuel ino [] = some l) ∧
    (MissingChain m ino → ∀ fuel parts, prefixFuel m fuel ino parts = none) := by
  constructor
  · intro n h fuel hf
    obtain ⟨l, hl⟩ := ancestorNames_isSome m h
    refine ⟨l, hl, ?_⟩
    rw [prefixFuel_reaches m h fuel [] hf, hl]
    simp
  · intro h fuel parts
    exact prefixFuel_missing m h fuel parts

/-- Chain for the witness: 3 → 2 → 1 (root); inode 9 dangles (its
parent 7 is absent). -/
def entA10 : Entry :=
  { name := "a", parent := 1, ctime := 0, atime := 0, mtime := 0, crtime := 0
    perm := 493, size := 0, u := .DirtyDir none }

def entB10 : Entry :=
  { name := "b", parent := 2, ctime := 0, atime := 0, mtime := 0, crtime := 0
    perm := 420, size := 0, u := .DirtyFile 0 none }

def entD10 : Entry :=
  { name := "d", parent := 7, ctime := 0, atime := 0, mtime := 0, crtime := 0
    perm := 420, size := 0, u := .DirtyFile 0 none }

def mC10 : InoMap := ⟨10, [(2, entA10), (3, entB10), (9, entD10)]⟩

theorem C10_prefix_terminates_and_is_correct_witness :
    (∃ l, ancestorNames mC10 3 2 = some l ∧ prefixFuel mC10 5 3 [] = some l) ∧
      prefixFuel mC10 5 9 [] = none := by
  constructor
  · exact (C10_prefix_terminates_and_is_correct mC10 3).1 2
      (@ReachesRoot.step mC10 3 entB10 1 (by decide) (by decide)
        (@ReachesRoot.step mC10 2 entA10 0 (by decide) (by decide) ReachesRoot.root))
      5 (by decide)
  · exact (C10_prefix_terminates_and_is_correct mC10 9).2
      (@MissingChain.there mC10 9 entD10 (by decide) (by decide)
        (@MissingChain.here mC10 7 (by decide) (by decide)))
      5 []

/-! ## Claim C6 — removal rollback -/

/-- C6: removing a `DirtyFile` child under the allocation invariant:
when the underlying `remove_file` fails (errno `err`), the detached
entry is re-registered at the freshly allocated inode `next_ino` —
strictly above, hence different from, the original inode — re-linked
into the parent's children under the same name, the original inode is
gone, and the reply is the OS error; when the removal succeeds the
entry is simply dropped from the registry and the reply is ok. -/
theorem C6_remove_dirty_file_rollback (m : InoMap) (parent : Ino) (name : Name) (child : Ino)
    (pe ce : Entry) (c : List (Name × Ino)) (r : Int) (fop : Option Nat) (err : Int)
    (hwf : m.WF) (hp : m.get parent = some pe) (hc : childrenOf pe.u = some c)
    (hn : alGet c name = some child) (hch : m.get child = some ce)
    (hkind : ce.u = .DirtyFile r fop) (hne : parent ≠ child) :
    (∃ m', do_remove m parent name (.error err) = some (m', .error err) ∧
      m'.get m.next_ino = some ce ∧ child < m.next_ino ∧ m'.get child = none ∧
      ∃ pe' c', m'.get parent = some pe' ∧ childrenOf pe'.u = some c' ∧
        alGet c' name = some m.next_ino) ∧
    (do_remove m parent name (.ok ()) = some (m.erase child, .ok) ∧
      (m.erase child).get child = none) := by
  have hclt : child < m.next_ino := InoMap.get_lt_of_wf hwf hch
  have hplt : parent < m.next_ino := InoMap.get_lt_of_wf hwf hp
  constructor
  · have hre : remove_entry m child (.error err) = some (.error (ce, err), m.erase child) := by
      simp only [remove_entry, hch, hkind]
    have h2 : ((m.erase child).add ce).2.get parent = some pe := by
      rw [InoMap.get_add_ne (m.erase child) ce parent (Nat.ne_of_lt hplt)]
      rw [InoMap.get_erase_ne m child parent hne]
      exact hp
    obtain ⟨u2, hw, hcu⟩ := withChildren_of_childrenOf hc (alInsert c name m.next_ino)
    refine ⟨(((m.erase child).add ce).2).set parent { pe with u := u2 }, ?_, ?_, hclt, ?_, ?_⟩
    · simp only [do_remove, hp, hc, hn, hre, InoMap.add_fst, InoMap.erase_next_ino, h2, hw]
    · rw [InoMap.get_set_ne _ _ _ _ (Nat.ne_of_gt hplt)]
      exact InoMap.get_add_self (m.erase child) ce
    · rw [InoMap.get_set_ne _ _ _ _ (Ne.symm hne)]
      rw [InoMap.get_add_ne (m.erase child) ce child (Nat.ne_of_lt hclt)]
      exact InoMap.get_erase_self m child
    · refine ⟨{ pe with u := u2 }, alInsert c name m.next_ino, ?_, hcu, ?_⟩
      · exact InoMap.get_set_self _ _ _
      · exact alGet_insert_self _ _ _
  · have hre : remove_entry m child (.ok ()) = some (.ok (), m.erase child) := by
      simp only [remove_entry, hch, hkind]
    refine ⟨?_, InoMap.get_erase_self m child⟩
    simp only [do_remove, hp, hc, hn, hre]

def rootC6 : Entry :=
  { name := "", parent := 1, ctime := 0, atime := 0, mtime := 0, crtime := 0
    perm := 493, size := 0, u := .GitTree 1 (some [("f", 2)]) }

def fentC6 : Entry :=
  { name := "f", parent := 1, ctime := 0, atime := 0, mtime := 0, crtime := 0
    perm := 420, size := 3, u := .DirtyFile 0 none }

def mC6 : InoMap := ⟨3, [(1, rootC6), (2, fentC6)]⟩

theorem C6_remove_dirty_file_rollback_witness :
    (∃ m', do_remove mC6 1 "f" (.error 13) = some (m', .error 13) ∧
      m'.get mC6.next_ino = some fentC6 ∧ 2 < mC6.next_ino ∧ m'.get 2 = none ∧
      ∃ pe' c', m'.get 1 = some pe' ∧ childrenOf pe'.u = some c' ∧
        alGet c' "f" = some mC6.next_ino) ∧
    (do_remove mC6 1 "f" (.ok ()) = some (mC6.erase 2, .ok) ∧
      (mC6.erase 2).get 2 = none) :=
  C6_remove_dirty_file_rollback mC6 1 "f" 2 rootC6 fentC6 [("f", 2)] 0 none 13
    (fun p hp => by
      rcases List.mem_cons.mp hp with h | h
      · subst h
        decide
      · have h2 : p = (2, fentC6) := List.mem_singleton.mp h
        subst h2
        decide)
    (by decide) (by decide) (by decide) (by decide) (by decide) (by decide)

/-! ## Claim C7 — rename keeps the inode -/

theorem physOutcome_ok (u : EntryKind) : physOutcome u (.ok ()) = .ok () := by
  cases u <;> rfl

/-- C7 (amended): a successful `rename` updates the child entry's
`name` to the new name while keeping everything else of the entry and
the inode number itself; the destination directory's children map the
new name to the same inode, no inode is allocated, and the source
directory's children no longer map the old name — except in the
degenerate case where the destination equals the source
(`new_parent = old_parent` and `new_name = old_name`), in which the
binding is re-inserted and survives. -/
theorem C7_rename_preserves_inode (m : InoMap) (parent : Ino) (name : Name)
    (newparent : Ino) (newname : Name) (pe ce npe : Entry)
    (oc nc : List (Name × Ino)) (c : Ino)
    (hp : m.get parent = some pe) (hoc : childrenOf pe.u = some oc)
    (hn : alGet oc name = some c) (hce : m.get c = some ce)
    (hnp : m.get newparent = some npe) (hnc : childrenOf npe.u = some nc)
    (hcp : c ≠ parent) (hcnp : c ≠ newparent) :
    ∃ m', rename m parent name newparent newname (.ok ()) = some (m', .ok) ∧
      m'.get c = some { ce with name := newname } ∧
      m'.next_ino = m.next_ino ∧
      (∃ np' nc', m'.get newparent = some np' ∧ childrenOf np'.u = some nc' ∧
        alGet nc' newname = some c) ∧
      (¬(parent = newparent ∧ name = newname) →
        ∃ op' oc', m'.get parent = some op' ∧ childrenOf op'.u = some oc' ∧
          alGet oc' name = none) := by
  have hgc : get_child pe name = some (some c) := by
    simp [get_child, hoc, hn]
  have h3 : (m.set c { ce with name := newname }).get parent = some pe := by
    rw [InoMap.get_set_ne m c parent _ (Ne.symm hcp)]
    exact hp
  obtain ⟨u2, hw2, hcu2⟩ := withChildren_of_childrenOf hoc (alErase oc name)
  by_cases hpq : parent = newparent
  · subst hpq
    obtain rfl : pe = npe := Option.some.inj (hp.symm.trans hnp)
    obtain rfl : oc = nc := Option.some.inj (hoc.symm.trans hnc)
    have h4 : ((m.set c { ce with name := newname }).set parent { pe with u := u2 }).get
        parent = some { pe with u := u2 } := InoMap.get_set_self _ _ _
    obtain ⟨u3, hw3, hcu3⟩ :=
      withChildren_of_childrenOf hcu2 (alInsert (alErase oc name) newname c)
    refine ⟨((m.set c { ce with name := newname }).set parent { pe with u := u2 }).set
      parent { { pe with u := u2 } with u := u3 }, ?_, ?_, rfl, ?_, ?_⟩
    · simp only [rename, hp, hgc, hce, physOutcome_ok, h3, hoc, hn, hw2, h4, hcu2, hw3]
    · rw [InoMap.get_set_ne _ _ _ _ hcp, InoMap.get_set_ne _ _ _ _ hcp]
      exact InoMap.get_set_self _ _ _
    · exact ⟨_, _, InoMap.get_set_self _ _ _, hcu3, alGet_insert_self _ _ _⟩
    · intro hg
      have hnn : name ≠ newname := fun h => hg ⟨rfl, h⟩
      refine ⟨_, _, InoMap.get_set_self _ _ _, hcu3, ?_⟩
      rw [alGet_insert_ne _ _ _ _ hnn]
      exact alGet_erase_self _ _
  · have h4 : ((m.set c { ce with name := newname }).set parent { pe with u := u2 }).get
        newparent = some npe := by
      rw [InoMap.get_set_ne _ _ _ _ (fun h => hpq h.symm)]
      rw [InoMap.get_set_ne _ _ _ _ (Ne.symm hcnp)]
      exact hnp
    obtain ⟨u3, hw3, hcu3⟩ := withChildren_of_childrenOf hnc (alInsert nc newname c)
    refine ⟨((m.set c { ce with name := newname }).set parent { pe with u := u2 }).set
      newparent { npe with u := u3 }, ?_, ?_, rfl, ?_, ?_⟩
    · simp only [rename, hp, hgc, hce, hnp, physOutcome_ok, h3, hoc, hn, hw2, h4, hnc, hw3]
    · rw [InoMap.get_set_ne _ _ _ _ hcnp, InoMap.get_set_ne _ _ _ _ hcp]
      exact InoMap.get_set_self _ _ _
    · exact ⟨_, _, InoMap.get_set_self _ _ _, hcu3, alGet_insert_self _ _ _⟩
    · intro _
      refine ⟨{ pe with u := u2 }, alErase oc name, ?_, hcu2, alGet_erase_self _ _⟩
      rw [InoMap.get_set_ne _ _ _ _ hpq]
      exact InoMap.get_set_self _ _ _

/-- Root with one dirty child `x` at inode 2. -/
def rootC7 : Entry :=
  { name := "", parent := 1, ctime := 0, atime := 0, mtime := 0, crtime := 0
    perm := 493, size := 0, u := .DirtyDir (some [("x", 2)]) }

def xentC7 : Entry :=
  { name := "x", parent := 1, ctime := 0, atime := 0, mtime := 0, crtime := 0
    perm := 420, size := 0, u := .DirtyFile 0 none }

def mC7 : InoMap := ⟨3, [(1, rootC7), (2, xentC7)]⟩

/-- C7 counterexample: the identity rename `rename(1, "x", 1, "x")`
succeeds (replies ok), yet the source directory's children still map
the old name `"x"` (to the same inode 2) afterwards, contradicting
the claim that after every successful rename the old parent's children
no longer map the old name. -/
theorem C7_identity_rename_keeps_old_name :
    (rename mC7 1 "x" 1 "x" (.ok ())).map
        (fun res => (res.2,
          (res.1.get 1).map (fun e => (childrenOf e.u).map (fun ch => alGet ch "x")))) =
      some (.ok, some (some (some 2))) := by
  decide

theorem C7_rename_preserves_inode_witness :
    ∃ m', rename mC7 1 "x" 1 "y" (.ok ()) = some (m', .ok) ∧
      m'.get 2 = some { xentC7 with name := "y" } ∧
      m'.next_ino = mC7.next_ino ∧
      (∃ np' nc', m'.get 1 = some np' ∧ childrenOf np'.u = some nc' ∧
        alGet nc' "y" = some 2) ∧
      (¬(1 = 1 ∧ "x" = "y") →
        ∃ op' oc', m'.get 1 = some op' ∧ childrenOf op'.u = some oc' ∧
          alGet oc' "x" = none) :=
  C7_rename_preserves_inode mC7 1 "x" 1 "y" rootC7 xentC7 rootC7 [("x", 2)] [("x", 2)] 2
    (by decide) (by decide) (by decide) (by decide) (by decide) (by decide)
    (by decide) (by decide)

/-! ## Claim C1 — merge precedence on a fresh listing -/

/-- The merged listing holds a closed `DirtyFile` under the name. -/
def dirtyAt (entries : List (Name × Entry)) (name : Name) : Prop :=
  ∃ e, alGet entries name = some e ∧ e.u = .DirtyFile 0 none

/-- The `DirtyFile` entry the merge builds for a readable underlying
regular file (the literal of the `SimpleType::File` arm). -/
def dirtyFileEntryOf (ino : Ino) (name : Name) (s : UStat) : Entry :=
  { name := name, parent := ino, ctime := s.st_ctime, atime := s.st_atime
    mtime := s.st_mtime, crtime := 0, perm := s.st_mode, size := s.st_size
    u := .DirtyFile 0 none }

theorem mergeStep_preserves_get {ino : Ino} {entries : List (Name × Entry)} {name : Name}
    {ge : Entry} (h : alGet entries name = some ge) (it : DirtyItem)
    (hit : isFileItemNamed it name = false) :
    alGet (mergeStep ino entries it) name = some ge := by
  cases it with
  | unreadable => exact h
  | item n st ty =>
    cases st with
    | none => exact h
    | some s =>
      cases ty with
      | dir =>
        by_cases hn : n = name
        · subst hn
          simp [mergeStep, alContains, h]
        · by_cases hct : alContains entries n
          · simp [mergeStep, hct, h]
          · simp [mergeStep, hct, alGet_insert_ne _ _ _ _ (fun x => hn x.symm), h]
      | file =>
        have hn : n ≠ name := by
          intro hx
          rw [isFileItemNamed, hx] at hit
          simp at hit
        simp [mergeStep, alGet_insert_ne _ _ _ _ (fun x => hn x.symm), h]
      | other => exact h

theorem foldl_mergeStep_preserves_get {ino : Ino} {name : Name} {ge : Entry} :
    ∀ (items : List DirtyItem) (entries : List (Name × Entry)),
      alGet entries name = some ge →
      (∀ it ∈ items, isFileItemNamed it name = false) →
      alGet (items.foldl (mergeStep ino) entries) name = some ge := by
  intro items
  induction items with
  | nil =>
    intro entries h _
    exact h
  | cons it rest ih =>
    intro entries h hall
    simp only [List.foldl_cons]
    exact ih _ (mergeStep_preserves_get h it (hall it (List.mem_cons_self _ _)))
      (fun x hx => hall x (List.mem_cons_of_mem _ hx))

theorem mergeStep_preserves_dirtyAt {ino : Ino} {entries : List (Name × Entry)} {name : Name}
    (h : dirtyAt entries name) (it : DirtyItem) :
    dirtyAt (mergeStep ino entries it) name := by
  obtain ⟨e, hget, hu⟩ := h
  cases it with
  | unreadable => exact ⟨e, hget, hu⟩
  | item n st ty =>
    cases st with
    | none => exact ⟨e, hget, hu⟩
    | some s =>
      cases ty with
      | dir =>
        by_cases hn : n = name
        · subst hn
          refine ⟨e, ?_, hu⟩
          simp [mergeStep, alContains, hget]
        · by_cases hct : alContains entries n
          · exact ⟨e, by simp [mergeStep, hct, hget], hu⟩
          · exact ⟨e,
              by simp [mergeStep, hct, alGet_insert_ne _ _ _ _ (fun x => hn x.symm), hget], hu⟩
      | file =>
        by_cases hn : n = name
        · subst hn
          refine ⟨dirtyFileEntryOf ino n s, ?_, rfl⟩
          exact alGet_insert_self _ _ _
        · exact ⟨e,
            by simp [mergeStep, alGet_insert_ne _ _ _ _ (fun x => hn x.symm), hget], hu⟩
      | other => exact ⟨e, hget, hu⟩

theorem foldl_mergeStep_preserves_dirtyAt {ino : Ino} {name : Name} :
    ∀ (items : List DirtyItem) (entries : List (Name × Entry)),
      dirtyAt entries name → dirtyAt (items.foldl (mergeStep ino) entries) name := by
  intro items
  induction items with
  | nil =>
    intro entries h
    exact h
  | cons it rest ih =>
    intro entries h
    simp only [List.foldl_cons]
    exact ih _ (mergeStep_preserves_dirtyAt h it)

theorem mergeStep_file_dirtyAt {ino : Ino} {name : Name} (entries : List (Name × Entry))
    {it : DirtyItem} (hit : isFileItemNamed it name = true) :
    dirtyAt (mergeStep ino entries it) name := by
  cases it with
  | unreadable => simp [isFileItemNamed] at hit
  | item n st ty =>
    cases st with
    | none => simp [isFileItemNamed] at hit
    | some s =>
      cases ty with
      | dir => simp [isFileItemNamed] at hit
      | other => simp [isFileItemNamed] at hit
      | file =>
        have hn : n = name := by simpa [isFileItemNamed] using hit
        subst hn
        refine ⟨dirtyFileEntryOf ino n s, ?_, rfl⟩
        exact alGet_insert_self _ _ _

theorem foldl_mergeStep_dirtyAt {ino : Ino} {name : Name} :
    ∀ (items : List DirtyItem) (entries : List (Name × Entry)),
      (∃ it ∈ items, isFileItemNamed it name = true) →
      dirtyAt (items.foldl (mergeStep ino) entries) name := by
  intro items
  induction items with
  | nil =>
    intro entries hex
    simp at hex
  | cons it rest ih =>
    intro entries hex
    simp only [List.foldl_cons]
    by_cases hit : isFileItemNamed it name = true
    · exact foldl_mergeStep_preserves_dirtyAt rest _ (mergeStep_file_dirtyAt entries hit)
    · rcases hex with ⟨it0, hmem, hf⟩
      rcases List.mem_cons.mp hmem with h0 | h0
      · exact absurd (h0 ▸ hf) hit
      · exact ih _ ⟨it0, h0, hf⟩

/-- C1 (amended): on a fresh listing of a Git-backed directory, for a
name present in the Git tree listing, the merge keeps the Git entry as
long as no readable regular file of that name appears in the
underlying listing (in particular an underlying *subdirectory* of the
same name is ignored and the Git entry wins); but whenever the
underlying listing contains a readable regular file of that name, the
cached child is the underlying `DirtyFile`, not the Git-backed entry —
for files, the underlying directory wins, not Git. -/
theorem C1_merge_precedence_amended (repo : Repo) (trees : Oid → List TreeEnt) (ino : Ino)
    (tid : Oid) (items : List DirtyItem) (name : Name) (ge : Entry)
    (hg : alGet (walk_tree repo ino (trees tid)) name = some ge) :
    ∃ l, walk_dir repo trees ino (some tid) (.ok items) = .ok l ∧
      ((∀ it ∈ items, isFileItemNamed it name = false) → alGet l name = some ge) ∧
      ((∃ it ∈ items, isFileItemNamed it name = true) →
        ∃ e, alGet l name = some e ∧ e.u = .DirtyFile 0 none) := by
  refine ⟨items.foldl (mergeStep ino) (walk_tree repo ino (trees tid)), rfl, ?_, ?_⟩
  · intro hall
    exact foldl_mergeStep_preserves_get items _ hg hall
  · intro hex
    exact foldl_mergeStep_dirtyAt items _ hex

/-- Blob 7 holds the committed bytes of `conf`. -/
def repoC1 : Repo := fun _ => [104, 105]

def treesC1 : Oid → List TreeEnt := fun _ => [⟨"conf", 33188, .blob 7⟩]

def stC1 : UStat := ⟨33188, 9, 0, 0, 0⟩

/-- C1 counterexample: the repo tree lists blob `conf` and the
underlying directory holds a regular file `conf`; after the fresh
listing the cached child under `conf` is *not* Git-backed (it is the
`DirtyFile` from the underlying directory), refuting the claim that
the Git entry always wins the merge. -/
theorem C1_file_collision_yields_dirty_entry :
    ((walk_dir repoC1 treesC1 1 (some 3) (.ok [.item "conf" (some stC1) .file])).toOption.bind
        (fun l => (alGet l "conf").map (fun e => isGitBacked e.u))) = some false := by
  decide

def itemsC1 : List DirtyItem := [.item "a" (some stC1) .dir, .item "b" (some stC1) .file]

/-- The Git blob entry for `a` produced by `walk_tree` in the witness
configuration. -/
def geC1 : Entry :=
  { name := "a", parent := 1, ctime := 0, atime := 0, mtime := 0, crtime := 0
    perm := 33188, size := 2, u := .GitBlob 7 }

def treesC1w : Oid → List TreeEnt := fun _ => [⟨"a", 33188, .blob 7⟩]

theorem C1_merge_precedence_amended_witness :
    ∃ l, walk_dir repoC1 treesC1w 1 (some 3) (.ok itemsC1) = .ok l ∧
      ((∀ it ∈ itemsC1, isFileItemNamed it "a" = false) → alGet l "a" = some geC1) ∧
      ((∃ it ∈ itemsC1, isFileItemNamed it "a" = true) →
        ∃ e, alGet l "a" = some e ∧ e.u = .DirtyFile 0 none) :=
  C1_merge_precedence_amended repoC1 treesC1w 1 3 itemsC1 "a" geC1 (by decide)

end GitFS
